import Mathlib

/-!
Shallow embedding of the shard controller in src/controller.py.

The controller keeps a "database" mapping (a JSON document, i.e. an
insertion-ordered dictionary from string keys to start/end records) plus a
directory of shard files.  Keys are exactly the strings produced by the code
itself: str(n) for a primary shard and str(n) ++ "-" ++ str(i) for the i-th
replica of shard n, so keys are represented structurally here and rendered
back to character lists where the code sorts them as strings.

The persisted mapfile and the in-memory mapping coincide at the start of
every operation (each operation ends with write_map, and the process is
single threaded), so load_map is modelled as the identity on the state's
mapping.  Fallible file-system calls (missing files, dict KeyError, max of
an empty list, copyfile from an unset source) are modelled with Option /
Except results; on an exception the persisted state is the unmodified input
state unless the error value records otherwise.
-/

/-- Span record stored in the catalog for each key; mirrors the Python dict
with fields start and end (end is a Lean keyword, renamed stop). -/
structure SRange where
  start : Nat
  stop : Nat
deriving DecidableEq

/-- A catalog key: str(n) for primaries, str(n) ++ "-" ++ str(i) for
replicas (the only key shapes the code ever creates). -/
inductive ShardKey where
  | primary (id : Nat)
  | replica (id : Nat) (idx : Nat)
deriving DecidableEq

/-- int(key.split('-')[0]) -/
def ShardKey.pid : ShardKey → Nat
  | .primary i => i
  | .replica i _ => i

/-- int(key.split('-')[1]) for replicas; 0 for a primary (the value the
sync scan assigns to the variable secondary for a primary key). -/
def ShardKey.ridx : ShardKey → Nat
  | .primary _ => 0
  | .replica _ j => j

/-- Whether '-' does not occur in the key. -/
def ShardKey.isPrimary : ShardKey → Bool
  | .primary _ => true
  | .replica _ _ => false

abbrev Content := List Char
abbrev Catalog := List (ShardKey × SRange)
abbrev Files := List (ShardKey × Content)

/-- The keys of an association list, in insertion order (dict key order). -/
def mapKeys {α : Type} (m : List (ShardKey × α)) : List ShardKey :=
  m.map Prod.fst

/-- dict.get: first (unique) binding of the key. -/
def mapGet {α : Type} (m : List (ShardKey × α)) (k : ShardKey) : Option α :=
  (m.find? (fun e => e.1 == k)).map Prod.snd

/-- dict.update with a single key: replace in place if present, else append
at the end (Python dicts preserve insertion order). -/
def mapSet {α : Type} : List (ShardKey × α) → ShardKey → α → List (ShardKey × α)
  | [], k, v => [(k, v)]
  | e :: m, k, v => if e.1 = k then (k, v) :: m else e :: mapSet m k v

/-- dict.pop of a present key / os.remove of an existing file. -/
def mapDel {α : Type} (m : List (ShardKey × α)) (k : ShardKey) : List (ShardKey × α) :=
  m.filter (fun e => !(e.1 == k))

/-- os.path.exists for the file of a key. -/
def fileExists (fs : Files) (k : ShardKey) : Bool :=
  (mapGet fs k).isSome

/-- The characters of the Python string key. -/
def keyStr : ShardKey → List Char
  | .primary i => Nat.toDigits 10 i
  | .replica i j => Nat.toDigits 10 i ++ '-' :: Nat.toDigits 10 j

/-- Python string comparison: lexicographic on code points. -/
def charsLt : List Char → List Char → Bool
  | _, [] => false
  | [], _ :: _ => true
  | a :: as, b :: bs => decide (a < b) || (a == b && charsLt as bs)

/-- a is at most b in the string order used by sorted(). -/
def keyLe (a b : ShardKey) : Bool :=
  !(charsLt (keyStr b) (keyStr a))

/-- Insert into a list sorted by keyLe (stable, like sorted()). -/
def insertKey (a : ShardKey) : List ShardKey → List ShardKey
  | [] => [a]
  | b :: l => if keyLe a b then a :: b :: l else b :: insertKey a l

/-- sorted() over the string forms of the keys. -/
def sortKeys (l : List ShardKey) : List ShardKey :=
  l.foldr insertKey []

/-- get_shard_ids: keys without '-', sorted as strings. -/
def get_shard_ids (m : Catalog) : List ShardKey :=
  sortKeys ((mapKeys m).filter (fun k => k.isPrimary))

/-- get_replication_ids: keys with '-', sorted as strings. -/
def get_replication_ids (m : Catalog) : List ShardKey :=
  sortKeys ((mapKeys m).filter (fun k => !k.isPrimary))

/-- The ShardHandler state: the mapping document, the data directory, and
the running character position used while writing primary ranges. -/
structure SH where
  mapping : Catalog
  files : Files
  lastCharPosition : Nat
deriving DecidableEq

/-- A fresh handler over an empty mapfile and empty data directory. -/
def SH0 : SH := ⟨[], [], 0⟩

/-- _write_shard_mapping for a primary key (the replication=False branch). -/
def write_shard_mapping (s : SH) (num : Nat) (d : Content) : SH :=
  let s1 := if num = 0 then { s with lastCharPosition := 0 } else s
  let st := if s1.lastCharPosition = 0 then s1.lastCharPosition
            else s1.lastCharPosition + 1
  { s1 with
      mapping := mapSet s1.mapping (.primary num)
        ⟨st, s1.lastCharPosition + d.length⟩,
      lastCharPosition := s1.lastCharPosition + d.length }

/-- _write_shard: write the file data/num.txt, then record its range. -/
def write_shard (s : SH) (num : Nat) (d : Content) : SH :=
  write_shard_mapping { s with files := mapSet s.files (.primary num) d } num d

/-- for num, d in enumerate(spliced_data): self._write_shard(num, d) -/
def writeShards (s : SH) (ds : List Content) : SH :=
  ds.enum.foldl (fun st nd => write_shard st nd.1 nd.2) s

/-- result[-1] += suffix (the list is nonempty whenever the code runs it). -/
def modifyLast {α : Type} (f : α → α) : List α → List α
  | [] => []
  | [a] => [f a]
  | a :: b :: l => a :: modifyLast f (b :: l)

/-- _generate_sharded_data: q, r = divmod(len(data), count); count slices of
length q, the last extended by data[-r:] when r > 0.  (In Python count = 0
raises ZeroDivisionError; every caller passes count >= 1.) -/
def generate_sharded_data (count : Nat) (data : Content) : List Content :=
  let q := data.length / count
  let r := data.length % count
  let base := (List.range count).map (fun z => (data.drop (q * z)).take q)
  if r > 0 then modifyLast (fun seg => seg ++ data.drop (data.length - r)) base
  else base

/-- load_data_from_shards: read data/db.txt for db in get_shard_ids() and
concatenate, in the string-sorted order of get_shard_ids; none when a
listed shard file is missing (open would raise). -/
def load_data_from_shards (s : SH) : Option Content :=
  ((get_shard_ids s.mapping).mapM (fun k => mapGet s.files k)).map List.flatten

/-- build_shards: refuses (returns a message, modelled none) unless the
mapping is empty; otherwise partitions and writes primaries 0..count-1. -/
def build_shards (s : SH) (count : Nat) (data : Content) : Option SH :=
  if s.mapping = [] then some (writeShards s (generate_sharded_data count data))
  else none

/-- max of a list of ints, all nonnegative here (callers guard nonempty,
since Python max([]) raises ValueError). -/
def listMax (l : List Nat) : Nat :=
  l.foldl max 0

/-- Highest replica index over a key list (the running max_rep of the sync
scan, and the per-group max_rep when applied to one group's keys). -/
def maxIdx (ks : List ShardKey) : Nat :=
  ks.foldl (fun a k => max a k.ridx) 0

/-- The global max_rep computed by the sync scan. -/
def globalMax (m : Catalog) : Nat :=
  maxIdx (mapKeys m)

/-- The catalog keys whose primary part is p, in catalog order. -/
def groupKeys (m : Catalog) (p : Nat) : List ShardKey :=
  (mapKeys m).filter (fun k => k.pid == p)

/-- files[p]['max_rep'] after the scan. -/
def localMax (m : Catalog) (p : Nat) : Nat :=
  maxIdx (groupKeys m p)

/-- Deduplication keeping first occurrences (insertion order of the Python
dicts keyed by primary id). -/
def firstOccsAux : List Nat → List Nat → List Nat
  | _, [] => []
  | seen, a :: l =>
    if a ∈ seen then firstOccsAux seen l else a :: firstOccsAux (a :: seen) l

/-- First occurrences of a list of primary ids, in order. -/
def firstOccs (l : List Nat) : List Nat :=
  firstOccsAux [] l

/-- Iteration order of the files dict built by the sync scan. -/
def groupIds (m : Catalog) : List Nat :=
  firstOccs ((mapKeys m).map ShardKey.pid)

/-- The members of files[p]['all_keys'] right after the scan: group keys
whose file does not exist. -/
def missingKeys (m : Catalog) (fs : Files) (p : Nat) : List ShardKey :=
  (groupKeys m p).filter (fun k => !(fileExists fs k))

/-- files[p]['filename']: the last group key (in catalog order) whose file
exists; none when it is still the empty string. -/
def srcKey (m : Catalog) (fs : Files) (p : Nat) : Option ShardKey :=
  ((groupKeys m p).filter (fun k => fileExists fs k)).getLast?

/-- range(files[p]['max_rep'] + 1, max_rep + 1). -/
def fillIdxs (m : Catalog) (p : Nat) : List Nat :=
  List.range' (localMax m p + 1) (globalMax m - localMax m p)

/-- The fill loop body for one group: for each missing replica index, look
up the parent primary's range in the current mapping (None would raise a
TypeError, modelled none) and record the mirrored entry. -/
def fillGroup : Catalog → Nat → List Nat → Option Catalog
  | m, _, [] => some m
  | m, p, i :: is =>
    match mapGet m (.primary p) with
    | none => none
    | some r => fillGroup (mapSet m (.replica p i) r) p is

/-- The whole fill loop, over groups in scan order; the per-group index
ranges were computed from the catalog m0 as scanned. -/
def syncFill (m0 : Catalog) : List Nat → Catalog → Option Catalog
  | [], m => some m
  | p :: ps, m =>
    match fillGroup m p (fillIdxs m0 p) with
    | none => none
    | some m1 => syncFill m0 ps m1

/-- The copy loop for one group: copyfile from the recorded source path to
each destination, reading the source at copy time; copying with no source
recorded (filename still '') raises, modelled none. -/
def copyGroup : Files → Option ShardKey → List ShardKey → Option Files
  | fs, _, [] => some fs
  | _, none, _ :: _ => none
  | fs, some sk, k :: ks =>
    match mapGet fs sk with
    | none => none
    | some c => copyGroup (mapSet fs k c) (some sk) ks

/-- files[p]['all_keys'] as it stands at the copy loop: the keys that had no
file at scan time plus the replica keys added by the fill loop.  (In the
code this is a Python set; its iteration order is irrelevant because the
destinations are pairwise distinct and the source is read per copy.) -/
def destKeys (m : Catalog) (fs : Files) (p : Nat) : List ShardKey :=
  missingKeys m fs p ++ (fillIdxs m p).map (ShardKey.replica p)

/-- The whole copy loop over groups in scan order. -/
def syncCopy (m0 : Catalog) (fs0 : Files) : List Nat → Files → Option Files
  | [], fs => some fs
  | p :: ps, fs =>
    match copyGroup fs (srcKey m0 fs0 p) (destKeys m0 fs0 p) with
    | none => none
    | some fs1 => syncCopy m0 fs0 ps fs1

/-- sync_replication: scan the reloaded mapping into groups, extend every
group's replica entries up to the global max_rep, then copy the group
source over every key lacking a file, and persist.  none models a raised
exception (the persisted mapping is then the unmodified input). -/
def sync_replication (s : SH) : Option SH :=
  let gs := groupIds s.mapping
  match syncFill s.mapping gs s.mapping with
  | none => none
  | some m1 =>
    match syncCopy s.mapping s.files gs s.files with
    | none => none
    | some fs1 => some { s with mapping := m1, files := fs1 }

/-- add_shard: reload, concatenate the shards in get_shard_ids order,
repartition into max(primary ids) + 2 pieces, rewrite all primaries, then
sync.  none models the ValueError of max([]) on an empty primary list or a
missing shard file while loading. -/
def add_shard (s : SH) : Option SH :=
  match load_data_from_shards s with
  | none => none
  | some data =>
    match (get_shard_ids s.mapping).map ShardKey.pid with
    | [] => none
    | k :: ks =>
      let newNum := listMax (k :: ks) + 2
      sync_replication (writeShards s (generate_sharded_data newNum data))

/-- remove_shard: concatenate the shards, pop the entry of the highest
primary id found among the split key prefixes (KeyError when that primary
key is absent, modelled none), repartition into max(remaining primary ids)
+ 1 pieces, delete the popped shard's file (os.remove raises when missing,
modelled none), rewrite the primaries, then sync. -/
def remove_shard (s : SH) : Option SH :=
  match load_data_from_shards s with
  | none => none
  | some data =>
    match (mapKeys s.mapping).map ShardKey.pid with
    | [] => none
    | p :: ps =>
      let maxKey := listMax (p :: ps)
      if (mapGet s.mapping (.primary maxKey)).isSome then
        let m1 := mapDel s.mapping (.primary maxKey)
        match (get_shard_ids m1).map ShardKey.pid with
        | [] => none
        | q :: qs =>
          let newNum := listMax (q :: qs) + 1
          if fileExists s.files (.primary maxKey) then
            sync_replication (writeShards
              { mapping := m1, files := mapDel s.files (.primary maxKey),
                lastCharPosition := s.lastCharPosition }
              (generate_sharded_data newNum data))
          else none
      else none

/-- The exceptions remove_replication can raise.  Each error carries the
state (mapping and data directory) at the moment of the raise, since the
loop mutates before raising. -/
inductive RemErr where
  | valueError
  | nothingToRemove
  | fileNotFound
  | keyError
  | syncFailed
deriving DecidableEq

/-- The removal loop of remove_replication, over the key_rep dict in its
insertion order: for each primary id with a nonzero recorded level, delete
that level's replica file then pop its catalog entry; a zero level raises
NameError (nothing left to remove) on the spot. -/
def removeRepLoop (lvl : Nat → Nat) : List Nat → SH → Except (RemErr × SH) SH
  | [], s => .ok s
  | p :: ps, s =>
    if lvl p ≠ 0 then
      if fileExists s.files (.replica p (lvl p)) then
        let s1 : SH := { s with files := mapDel s.files (.replica p (lvl p)) }
        if (mapGet s1.mapping (.replica p (lvl p))).isSome then
          removeRepLoop lvl ps
            { s1 with mapping := mapDel s1.mapping (.replica p (lvl p)) }
        else .error (.keyError, s1)
      else .error (.fileNotFound, s)
    else .error (.nothingToRemove, s)

/-- key_rep[p]: the max replica index recorded for primary id p (0 when p
has no replicas, from the defaultdict initialisation). -/
def repLvl (m : Catalog) (p : Nat) : Nat :=
  (((get_replication_ids m).map (fun k => (k.pid, k.ridx))).filter
      (fun q => q.1 == p)).foldl (fun a q => max a q.2) 0

/-- remove_replication: build key_rep over the sorted primary ids then the
replica key prefixes, run the removal loop, persist, and sync.  An empty
primary list makes max(keys) raise ValueError first. -/
def remove_replication (s : SH) : Except (RemErr × SH) SH :=
  let primaries := (get_shard_ids s.mapping).map ShardKey.pid
  if primaries = [] then .error (.valueError, s)
  else
    let gs := firstOccs (primaries ++ (get_replication_ids s.mapping).map ShardKey.pid)
    match removeRepLoop (repLvl s.mapping) gs s with
    | .error e => .error e
    | .ok s1 =>
      match sync_replication s1 with
      | none => .error (.syncFailed, s1)
      | some s2 => .ok s2

/-- The three shapes of get_shard_data's return value: the whole mapping,
the invalid-id message (which embeds the get_shard_ids() list), or one
shard's record. -/
inductive ShardInfo where
  | all (m : Catalog)
  | invalid (valid : List ShardKey)
  | info (k : ShardKey) (r : SRange)
deriving DecidableEq

/-- get_shard_data: with no key return everything; otherwise report the
mapping record, or the invalid-shard message listing get_shard_ids(). -/
def get_shard_data (s : SH) : Option ShardKey → ShardInfo
  | none => .all s.mapping
  | some k =>
    match mapGet s.mapping k with
    | none => .invalid (get_shard_ids s.mapping)
    | some r => .info k r

/-- Modelled from the spec: the original corpus is reconstructable by
concatenating all primary shard files in ascending numeric id order
(spec glossary).  This is the spec-side reading of id order, to be
compared with the code's string-sorted get_shard_ids order. -/
def insNat (a : Nat) : List Nat → List Nat
  | [] => [a]
  | b :: l => if a ≤ b then a :: b :: l else b :: insNat a l

/-- Ascending numeric sort (spec-side id order). -/
def sortNat (l : List Nat) : List Nat :=
  l.foldr insNat []

/-- Modelled from the spec: concatenation of the primary files in ascending
numeric id order. -/
def primaryConcat (s : SH) : Option Content :=
  ((sortNat (((mapKeys s.mapping).filter (fun k => k.isPrimary)).map ShardKey.pid)).mapM
      (fun i => mapGet s.files (.primary i))).map List.flatten

deriving instance DecidableEq for Except

/-! ### Association-list lemmas -/

theorem mapKeys_append {α : Type} (m1 m2 : List (ShardKey × α)) :
    mapKeys (m1 ++ m2) = mapKeys m1 ++ mapKeys m2 :=
  List.map_append ..

theorem mapGet_cons {α : Type} (e : ShardKey × α) (m : List (ShardKey × α)) (k : ShardKey) :
    mapGet (e :: m) k = if e.1 = k then some e.2 else mapGet m k := by
  by_cases h : e.1 = k
  · simp [mapGet, List.find?_cons_of_pos, h]
  · simp [mapGet, List.find?_cons_of_neg, h]

theorem mapGet_isSome_iff_mem {α : Type} (m : List (ShardKey × α)) (k : ShardKey) :
    (mapGet m k).isSome = true ↔ k ∈ mapKeys m := by
  induction m with
  | nil => simp [mapGet, mapKeys]
  | cons e m ih =>
    rw [mapGet_cons]
    by_cases h : e.1 = k
    · simp [h, mapKeys]
    · simp [h, mapKeys, ih]
      intro hk
      exact absurd hk.symm h

theorem mapGet_append_right_ne {α : Type} (m1 m2 : List (ShardKey × α)) (k : ShardKey)
    (h : ∀ e ∈ m2, e.1 ≠ k) : mapGet (m1 ++ m2) k = mapGet m1 k := by
  induction m1 with
  | nil =>
    simp only [List.nil_append]
    induction m2 with
    | nil => rfl
    | cons e m2 ih2 =>
      rw [mapGet_cons]
      simp only [mapGet, List.find?_nil] at *
      rw [if_neg (h e (by simp))]
      exact ih2 (fun e2 he2 => h e2 (by simp [he2]))
  | cons e m1 ih =>
    rw [List.cons_append, mapGet_cons, mapGet_cons, ih]

theorem mapSet_eq_append_of_not_mem {α : Type} (m : List (ShardKey × α)) (k : ShardKey)
    (v : α) (h : k ∉ mapKeys m) : mapSet m k v = m ++ [(k, v)] := by
  induction m with
  | nil => rfl
  | cons e m ih =>
    have hne : e.1 ≠ k := by
      intro hk
      exact h (by simp [mapKeys, hk])
    simp only [mapSet, if_neg hne, List.cons_append]
    rw [ih (fun hk => h (by simp [mapKeys] at hk ⊢; exact Or.inr hk))]

theorem mapGet_mapSet_self {α : Type} (m : List (ShardKey × α)) (k : ShardKey) (v : α) :
    mapGet (mapSet m k v) k = some v := by
  induction m with
  | nil => simp [mapSet, mapGet_cons]
  | cons e m ih =>
    by_cases h : e.1 = k
    · simp [mapSet, h, mapGet_cons]
    · simp [mapSet, h, mapGet_cons, ih]

theorem mapGet_mapSet_ne {α : Type} (m : List (ShardKey × α)) (k k2 : ShardKey) (v : α)
    (h : k2 ≠ k) : mapGet (mapSet m k v) k2 = mapGet m k2 := by
  induction m with
  | nil =>
    rw [mapSet, mapGet_cons, if_neg (fun hk => h hk.symm)]
  | cons e m ih =>
    by_cases he : e.1 = k
    · rw [mapSet, if_pos he, mapGet_cons, mapGet_cons, he,
        if_neg (fun hk => h hk.symm), if_neg (fun hk => h hk.symm)]
    · rw [mapSet, if_neg he, mapGet_cons, mapGet_cons, ih]

theorem mapKeys_filter_key {α : Type} (m : List (ShardKey × α)) (pk : ShardKey → Bool) :
    mapKeys (m.filter (fun e => pk e.1)) = (mapKeys m).filter pk := by
  induction m with
  | nil => rfl
  | cons e m ih =>
    by_cases h : pk e.1 = true
    · simp [mapKeys, List.filter_cons, h] at *
      exact ih
    · simp only [Bool.not_eq_true] at h
      simp [mapKeys, List.filter_cons, h] at *
      exact ih

theorem mapGet_filter_key {α : Type} (m : List (ShardKey × α)) (pk : ShardKey → Bool)
    (k : ShardKey) :
    mapGet (m.filter (fun e => pk e.1)) k = if pk k = true then mapGet m k else none := by
  induction m with
  | nil => simp [mapGet]
  | cons e m ih =>
    rw [List.filter_cons]
    by_cases hp : pk e.1 = true
    · rw [if_pos hp, mapGet_cons, mapGet_cons]
      by_cases he : e.1 = k
      · rw [if_pos he, if_pos (he ▸ hp), if_pos he]
      · rw [if_neg he, if_neg he, ih]
    · rw [if_neg hp, ih]
      by_cases he : e.1 = k
      · have hk2 : ¬ pk k = true := by rw [← he]; exact hp
        rw [if_neg hk2, if_neg hk2]
      · rw [mapGet_cons, if_neg he]

theorem mapGet_mapDel_self {α : Type} (m : List (ShardKey × α)) (k : ShardKey) :
    mapGet (mapDel m k) k = none := by
  have := mapGet_filter_key m (fun x => !(x == k)) k
  rw [if_neg (by simp)] at this
  exact this

theorem mapGet_mapDel_ne {α : Type} (m : List (ShardKey × α)) (k k2 : ShardKey)
    (h : k2 ≠ k) : mapGet (mapDel m k) k2 = mapGet m k2 := by
  have := mapGet_filter_key m (fun x => !(x == k)) k2
  rw [if_pos (by simpa using h)] at this
  exact this

/-! ### foldl-max lemmas -/

theorem foldl_max_shift {α : Type} (f : α → Nat) (l : List α) (a : Nat) :
    l.foldl (fun b x => max b (f x)) a = max a (l.foldl (fun b x => max b (f x)) 0) := by
  induction l generalizing a with
  | nil => simp
  | cons x l ih =>
    simp only [List.foldl_cons]
    rw [ih (max a (f x)), ih (max 0 (f x))]
    omega

theorem le_foldl_max {α : Type} (f : α → Nat) (l : List α) (x : α) (hx : x ∈ l) :
    f x ≤ l.foldl (fun b y => max b (f y)) 0 := by
  induction l with
  | nil => cases hx
  | cons y l ih =>
    simp only [List.foldl_cons]
    rw [foldl_max_shift]
    rcases List.mem_cons.mp hx with h | h
    · subst h; omega
    · have := ih h; omega

theorem foldl_max_le {α : Type} (f : α → Nat) (l : List α) (b : Nat)
    (h : ∀ x ∈ l, f x ≤ b) : l.foldl (fun c x => max c (f x)) 0 ≤ b := by
  induction l with
  | nil => simp
  | cons x l ih =>
    simp only [List.foldl_cons]
    rw [foldl_max_shift]
    have h1 := h x (by simp)
    have h2 := ih (fun y hy => h y (by simp [hy]))
    omega

theorem maxIdx_append (l1 l2 : List ShardKey) :
    maxIdx (l1 ++ l2) = max (maxIdx l1) (maxIdx l2) := by
  rw [maxIdx, List.foldl_append, foldl_max_shift]
  rfl

/-! ### first-occurrence lemmas -/

theorem mem_firstOccsAux (l : List Nat) :
    ∀ (seen : List Nat) (a : Nat), a ∈ firstOccsAux seen l ↔ (a ∈ l ∧ a ∉ seen) := by
  induction l with
  | nil => simp [firstOccsAux]
  | cons b l ih =>
    intro seen a
    by_cases hb : b ∈ seen
    · rw [firstOccsAux, if_pos hb, ih]
      constructor
      · rintro ⟨h1, h2⟩
        exact ⟨List.mem_cons.mpr (Or.inr h1), h2⟩
      · rintro ⟨h1, h2⟩
        rcases List.mem_cons.mp h1 with h | h
        · exact absurd (h ▸ hb) h2
        · exact ⟨h, h2⟩
    · rw [firstOccsAux, if_neg hb]
      constructor
      · intro h
        rcases List.mem_cons.mp h with h | h
        · exact ⟨List.mem_cons.mpr (Or.inl h), h ▸ hb⟩
        · have := (ih (b :: seen) a).mp h
          exact ⟨List.mem_cons.mpr (Or.inr this.1),
            fun hs => this.2 (List.mem_cons.mpr (Or.inr hs))⟩
      · rintro ⟨h1, h2⟩
        rcases List.mem_cons.mp h1 with h | h
        · exact List.mem_cons.mpr (Or.inl h)
        · by_cases hab : a = b
          · exact List.mem_cons.mpr (Or.inl hab)
          · exact List.mem_cons.mpr (Or.inr ((ih (b :: seen) a).mpr
              ⟨h, fun hs => (List.mem_cons.mp hs).elim hab h2⟩))

theorem nodup_firstOccsAux (l : List Nat) :
    ∀ seen : List Nat, (firstOccsAux seen l).Nodup := by
  induction l with
  | nil => intro seen; simp [firstOccsAux]
  | cons b l ih =>
    intro seen
    by_cases hb : b ∈ seen
    · rw [firstOccsAux, if_pos hb]; exact ih seen
    · rw [firstOccsAux, if_neg hb]
      refine List.nodup_cons.mpr ⟨?_, ih (b :: seen)⟩
      intro hmem
      exact ((mem_firstOccsAux l (b :: seen) b).mp hmem).2 (by simp)

theorem firstOccsAux_eq_nil (l : List Nat) :
    ∀ seen : List Nat, (∀ a ∈ l, a ∈ seen) → firstOccsAux seen l = [] := by
  induction l with
  | nil => intro seen _; rfl
  | cons b l ih =>
    intro seen h
    rw [firstOccsAux, if_pos (h b (by simp))]
    exact ih seen (fun a ha => h a (by simp [ha]))

theorem firstOccsAux_append_absorb (l : List Nat) :
    ∀ (seen l2 : List Nat), (∀ a ∈ l2, a ∈ seen ∨ a ∈ l) →
      firstOccsAux seen (l ++ l2) = firstOccsAux seen l := by
  induction l with
  | nil =>
    intro seen l2 h
    simp only [List.nil_append, firstOccsAux]
    exact firstOccsAux_eq_nil l2 seen (fun a ha => (h a ha).elim id (fun hc => absurd hc (by simp)))
  | cons b l ih =>
    intro seen l2 h
    by_cases hb : b ∈ seen
    · rw [List.cons_append, firstOccsAux, if_pos hb, firstOccsAux, if_pos hb]
      refine ih seen l2 (fun a ha => ?_)
      rcases h a ha with hc | hc
      · exact Or.inl hc
      · rcases List.mem_cons.mp hc with hc | hc
        · exact Or.inl (hc ▸ hb)
        · exact Or.inr hc
    · rw [List.cons_append, firstOccsAux, if_neg hb, firstOccsAux, if_neg hb]
      refine congrArg (b :: ·) (ih (b :: seen) l2 (fun a ha => ?_))
      rcases h a ha with hc | hc
      · exact Or.inl (by simp [hc])
      · rcases List.mem_cons.mp hc with hc | hc
        · exact Or.inl (by simp [hc])
        · exact Or.inr hc

theorem mem_firstOccs (l : List Nat) (a : Nat) : a ∈ firstOccs l ↔ a ∈ l := by
  rw [firstOccs, mem_firstOccsAux]
  simp

theorem nodup_firstOccs (l : List Nat) : (firstOccs l).Nodup :=
  nodup_firstOccsAux l []

/-! ### sortKeys membership -/

theorem mem_insertKey (a x : ShardKey) (l : List ShardKey) :
    x ∈ insertKey a l ↔ x = a ∨ x ∈ l := by
  induction l with
  | nil => simp [insertKey]
  | cons b l ih =>
    rw [insertKey]
    by_cases h : keyLe a b = true
    · simp [h]
    · simp only [if_neg h, List.mem_cons, ih]
      tauto

theorem mem_sortKeys (l : List ShardKey) (x : ShardKey) : x ∈ sortKeys l ↔ x ∈ l := by
  induction l with
  | nil => simp [sortKeys]
  | cons a l ih =>
    rw [sortKeys, List.foldr_cons, mem_insertKey]
    simp only [List.mem_cons]
    rw [← sortKeys, ih]

/-! ### Partitioner lemmas (C4) -/

theorem modifyLast_length {α : Type} (f : α → α) (l : List α) :
    (modifyLast f l).length = l.length := by
  induction l with
  | nil => rfl
  | cons a l ih =>
    cases l with
    | nil => rfl
    | cons b l2 =>
      simp only [modifyLast, List.length_cons] at *
      omega

theorem flatten_modifyLast_append (suf : Content) (l : List Content) (hl : l ≠ []) :
    (modifyLast (fun seg => seg ++ suf) l).flatten = l.flatten ++ suf := by
  induction l with
  | nil => exact absurd rfl hl
  | cons a l ih =>
    cases l with
    | nil => simp [modifyLast]
    | cons b l2 =>
      simp only [modifyLast, List.flatten_cons]
      rw [ih (by simp)]
      simp [List.append_assoc]

theorem slices_flatten (data : Content) (q : Nat) (n : Nat) :
    ((List.range n).map (fun z => (data.drop (q * z)).take q)).flatten
      = data.take (q * n) := by
  induction n with
  | zero => simp
  | succ n ih =>
    rw [List.range_succ, List.map_append, List.flatten_append, ih]
    simp only [List.map_cons, List.map_nil, List.flatten_cons, List.flatten_nil,
      List.append_nil]
    rw [Nat.mul_succ, List.take_add]

theorem gsd_length (count : Nat) (data : Content) :
    (generate_sharded_data count data).length = count := by
  rw [generate_sharded_data]
  by_cases hr : data.length % count > 0
  · simp only [if_pos hr]
    rw [modifyLast_length, List.length_map, List.length_range]
  · simp only [if_neg hr]
    rw [List.length_map, List.length_range]

theorem gsd_flatten (count : Nat) (data : Content) (h : 1 ≤ count) :
    (generate_sharded_data count data).flatten = data := by
  rw [generate_sharded_data]
  have hdm : count * (data.length / count) + data.length % count = data.length :=
    Nat.div_add_mod data.length count
  have hqc : data.length / count * count = data.length - data.length % count := by
    rw [Nat.mul_comm]; omega
  by_cases hr : data.length % count > 0
  · simp only [if_pos hr]
    have hne : (List.range count).map
        (fun z => (data.drop (data.length / count * z)).take (data.length / count)) ≠ [] := by
      intro hnil
      have hc : count = 0 := by simpa using congrArg List.length hnil
      omega
    rw [flatten_modifyLast_append _ _ hne, slices_flatten, hqc]
    exact List.take_append_drop _ data
  · simp only [if_neg hr]
    rw [slices_flatten, hqc]
    have hmz : data.length % count = 0 := by omega
    rw [hmz, Nat.sub_zero]
    exact List.take_of_length_le (Nat.le_refl _)

/-! ### Group-structure lemmas for the sync scan -/

theorem mem_groupKeys (m : Catalog) (p : Nat) (k : ShardKey) :
    k ∈ groupKeys m p ↔ k ∈ mapKeys m ∧ k.pid = p := by
  rw [groupKeys, List.mem_filter]
  simp

theorem ridx_le_globalMax (m : Catalog) (k : ShardKey) (h : k ∈ mapKeys m) :
    k.ridx ≤ globalMax m :=
  le_foldl_max ShardKey.ridx (mapKeys m) k h

theorem ridx_le_localMax (m : Catalog) (p : Nat) (k : ShardKey)
    (h : k ∈ mapKeys m) (hp : k.pid = p) : k.ridx ≤ localMax m p :=
  le_foldl_max ShardKey.ridx (groupKeys m p) k ((mem_groupKeys m p k).mpr ⟨h, hp⟩)

theorem localMax_le_globalMax (m : Catalog) (p : Nat) :
    localMax m p ≤ globalMax m := by
  apply foldl_max_le
  intro k hk
  exact ridx_le_globalMax m k ((mem_groupKeys m p k).mp hk).1

theorem mem_fillIdxs (m : Catalog) (p : Nat) (i : Nat) :
    i ∈ fillIdxs m p ↔ localMax m p < i ∧ i ≤ globalMax m := by
  rw [fillIdxs, List.mem_range'_1]
  have := localMax_le_globalMax m p
  omega

theorem fillIdxs_nodup (m : Catalog) (p : Nat) : (fillIdxs m p).Nodup := by
  rw [fillIdxs]
  exact List.nodup_range' ..

theorem fillIdxs_fresh (m : Catalog) (p : Nat) (i : Nat) (hi : i ∈ fillIdxs m p) :
    ShardKey.replica p i ∉ mapKeys m := by
  intro hmem
  have hb := (mem_fillIdxs m p i).mp hi
  have : (ShardKey.replica p i).ridx ≤ localMax m p :=
    ridx_le_localMax m p _ hmem rfl
  simp [ShardKey.ridx] at this
  omega

theorem pid_mem_groupIds (m : Catalog) (k : ShardKey) (h : k ∈ mapKeys m) :
    k.pid ∈ groupIds m := by
  rw [groupIds, mem_firstOccs]
  exact List.mem_map.mpr ⟨k, h, rfl⟩

theorem groupIds_nodup (m : Catalog) : (groupIds m).Nodup :=
  nodup_firstOccs _

theorem mem_groupIds (m : Catalog) (p : Nat) :
    p ∈ groupIds m ↔ ∃ k ∈ mapKeys m, k.pid = p := by
  rw [groupIds, mem_firstOccs]
  simp [List.mem_map]

/-! ### The entries appended by the fill loop -/

/-- The catalog entries the fill loop of sync_replication appends: for each
group in scan order, one mirrored entry per missing replica index (proof
artifact used to characterise a successful syncFill). -/
def fillsFrom (m0 : Catalog) (gs : List Nat) : Catalog :=
  (gs.map (fun p => (fillIdxs m0 p).map
      (fun i => (ShardKey.replica p i, (mapGet m0 (.primary p)).getD ⟨0, 0⟩)))).flatten

theorem fillsFrom_cons (m0 : Catalog) (p : Nat) (ps : List Nat) :
    fillsFrom m0 (p :: ps) = (fillIdxs m0 p).map
        (fun i => (ShardKey.replica p i, (mapGet m0 (.primary p)).getD ⟨0, 0⟩))
      ++ fillsFrom m0 ps :=
  rfl

theorem mem_mapKeys_fillsFrom (m0 : Catalog) (gs : List Nat) (k : ShardKey) :
    k ∈ mapKeys (fillsFrom m0 gs) ↔
      ∃ p ∈ gs, ∃ i ∈ fillIdxs m0 p, k = ShardKey.replica p i := by
  constructor
  · intro h
    rw [fillsFrom, mapKeys] at h
    rcases List.mem_map.mp h with ⟨e, he, rfl⟩
    rcases List.mem_flatten.mp he with ⟨l2, hl2, hel⟩
    rcases List.mem_map.mp hl2 with ⟨p, hp, rfl⟩
    rcases List.mem_map.mp hel with ⟨i, hi, rfl⟩
    exact ⟨p, hp, i, hi, rfl⟩
  · rintro ⟨p, hp, i, hi, rfl⟩
    rw [fillsFrom, mapKeys]
    apply List.mem_map.mpr
    refine ⟨(ShardKey.replica p i, (mapGet m0 (.primary p)).getD ⟨0, 0⟩), ?_, rfl⟩
    apply List.mem_flatten.mpr
    exact ⟨_, List.mem_map.mpr ⟨p, hp, rfl⟩, List.mem_map.mpr ⟨i, hi, rfl⟩⟩

theorem fillGroup_some_eq (p : Nat) : ∀ (is : List Nat) (m m1 : Catalog),
    fillGroup m p is = some m1 → is.Nodup →
    (∀ i ∈ is, ShardKey.replica p i ∉ mapKeys m) →
    m1 = m ++ is.map (fun i => (ShardKey.replica p i, (mapGet m (.primary p)).getD ⟨0, 0⟩)) := by
  intro is
  induction is with
  | nil =>
    intro m m1 h _ _
    rw [fillGroup] at h
    simp at h
    simp [h.symm]
  | cons i is ih =>
    intro m m1 h hnd hfresh
    rw [fillGroup] at h
    cases hg : mapGet m (.primary p) with
    | none => rw [hg] at h; cases h
    | some r =>
      rw [hg] at h
      replace h : fillGroup (mapSet m (.replica p i) r) p is = some m1 := h
      have hset : mapSet m (.replica p i) r = m ++ [(.replica p i, r)] :=
        mapSet_eq_append_of_not_mem _ _ _ (hfresh i (by simp))
      rw [hset] at h
      have hfresh2 : ∀ j ∈ is, ShardKey.replica p j ∉ mapKeys (m ++ [(.replica p i, r)]) := by
        intro j hj hmem
        rw [mapKeys_append] at hmem
        rcases List.mem_append.mp hmem with hm | hm
        · exact hfresh j (by simp [hj]) hm
        · have hji : ShardKey.replica p j = ShardKey.replica p i := by
            simpa [mapKeys] using hm
          have hji2 : j = i := by
            cases hji
            rfl
          exact (List.nodup_cons.mp hnd).1 (hji2 ▸ hj)
      have heq := ih (m ++ [(.replica p i, r)]) m1 h (List.nodup_cons.mp hnd).2 hfresh2
      have hget : mapGet (m ++ [((ShardKey.replica p i : ShardKey), r)]) (.primary p)
          = some r := by
        rw [mapGet_append_right_ne]
        · exact hg
        · intro e he
          simp only [List.mem_singleton] at he
          subst he
          simp
      rw [heq]
      simp only [hget, hg, Option.getD_some]
      simp [List.append_assoc]

theorem syncFill_some_eq (m0 : Catalog) : ∀ (gs : List Nat) (m m1 : Catalog),
    syncFill m0 gs m = some m1 → gs.Nodup →
    (∀ p ∈ gs, ∀ i ∈ fillIdxs m0 p, ShardKey.replica p i ∉ mapKeys m) →
    (∀ p ∈ gs, mapGet m (.primary p) = mapGet m0 (.primary p)) →
    m1 = m ++ fillsFrom m0 gs := by
  intro gs
  induction gs with
  | nil =>
    intro m m1 h _ _ _
    rw [syncFill] at h
    simp at h
    simp [fillsFrom, h.symm]
  | cons p ps ih =>
    intro m m1 h hnd hfresh hget
    rw [syncFill] at h
    cases hf : fillGroup m p (fillIdxs m0 p) with
    | none => rw [hf] at h; cases h
    | some m2 =>
      rw [hf] at h
      have hm2 : m2 = m ++ (fillIdxs m0 p).map
          (fun i => (ShardKey.replica p i, (mapGet m (.primary p)).getD ⟨0, 0⟩)) :=
        fillGroup_some_eq p _ m m2 hf (fillIdxs_nodup m0 p)
          (fun i hi => hfresh p (by simp) i hi)
      rw [hget p (by simp)] at hm2
      have hndps : ps.Nodup := (List.nodup_cons.mp hnd).2
      have hpps : p ∉ ps := (List.nodup_cons.mp hnd).1
      have hfresh2 : ∀ q ∈ ps, ∀ i ∈ fillIdxs m0 q,
          ShardKey.replica q i ∉ mapKeys m2 := by
        intro q hq i hi hmem
        rw [hm2, mapKeys_append] at hmem
        rcases List.mem_append.mp hmem with hm | hm
        · exact hfresh q (by simp [hq]) i hi hm
        · simp only [mapKeys, List.map_map, List.mem_map] at hm
          rcases hm with ⟨j, _, hj⟩
          have : p = q := by
            have := congrArg ShardKey.pid hj
            simpa [ShardKey.pid] using this
          exact hpps (this ▸ hq)
      have hget2 : ∀ q ∈ ps, mapGet m2 (.primary q) = mapGet m0 (.primary q) := by
        intro q hq
        rw [hm2, mapGet_append_right_ne]
        · exact hget q (by simp [hq])
        · intro e he
          simp only [List.mem_map] at he
          rcases he with ⟨j, _, hj⟩
          rw [← hj]
          simp
      have heq := ih m2 m1 h hndps hfresh2 hget2
      rw [heq, hm2, fillsFrom_cons, List.append_assoc]

/-! ### Copy-loop lemmas -/

theorem copyGroup_facts (src : Option ShardKey) : ∀ (ks : List ShardKey) (fs fs1 : Files),
    copyGroup fs src ks = some fs1 →
    (∀ k, fileExists fs k = true → fileExists fs1 k = true) ∧
    (∀ k ∈ ks, fileExists fs1 k = true) ∧
    (∀ k, k ∉ ks → mapGet fs1 k = mapGet fs k) := by
  intro ks
  induction ks with
  | nil =>
    intro fs fs1 h
    cases src with
    | none =>
      rw [copyGroup] at h
      simp at h
      exact ⟨fun k hk => h ▸ hk, fun k hk => absurd hk (List.not_mem_nil k),
        fun k _ => by rw [h]⟩
    | some sk =>
      rw [copyGroup] at h
      simp at h
      exact ⟨fun k hk => h ▸ hk, fun k hk => absurd hk (List.not_mem_nil k),
        fun k _ => by rw [h]⟩
  | cons k ks ih =>
    intro fs fs1 h
    cases src with
    | none => rw [copyGroup] at h; cases h
    | some sk =>
      rw [copyGroup] at h
      cases hc : mapGet fs sk with
      | none => rw [hc] at h; cases h
      | some c =>
        rw [hc] at h
        obtain ⟨mono, cover, frame⟩ := ih (mapSet fs k c) fs1 h
        refine ⟨?_, ?_, ?_⟩
        · intro k2 hk2
          apply mono
          by_cases hkk : k2 = k
          · subst hkk
            rw [fileExists, mapGet_mapSet_self]
            rfl
          · rw [fileExists, mapGet_mapSet_ne _ _ _ _ hkk]
            exact hk2
        · intro k2 hk2
          rcases List.mem_cons.mp hk2 with hk | hk
          · subst hk
            apply mono
            rw [fileExists, mapGet_mapSet_self]
            rfl
          · exact cover k2 hk
        · intro k2 hk2
          have h1 : k2 ∉ ks := fun hc2 => hk2 (by simp [hc2])
          have h2 : k2 ≠ k := fun hc2 => hk2 (by simp [hc2])
          rw [frame k2 h1, mapGet_mapSet_ne _ _ _ _ h2]

theorem syncCopy_facts (m0 : Catalog) (fs0 : Files) : ∀ (gs : List Nat) (fs fs1 : Files),
    syncCopy m0 fs0 gs fs = some fs1 →
    (∀ k, fileExists fs k = true → fileExists fs1 k = true) ∧
    (∀ p ∈ gs, ∀ k ∈ destKeys m0 fs0 p, fileExists fs1 k = true) ∧
    (∀ k, (∀ p ∈ gs, k ∉ destKeys m0 fs0 p) → mapGet fs1 k = mapGet fs k) := by
  intro gs
  induction gs with
  | nil =>
    intro fs fs1 h
    rw [syncCopy] at h
    simp at h
    exact ⟨fun k hk => h ▸ hk, fun p hp => absurd hp (List.not_mem_nil p),
      fun k _ => by rw [h]⟩
  | cons p ps ih =>
    intro fs fs1 h
    rw [syncCopy] at h
    cases hg : copyGroup fs (srcKey m0 fs0 p) (destKeys m0 fs0 p) with
    | none => rw [hg] at h; cases h
    | some fsmid =>
      rw [hg] at h
      obtain ⟨mono1, cover1, frame1⟩ := copyGroup_facts _ _ _ _ hg
      obtain ⟨mono2, cover2, frame2⟩ := ih fsmid fs1 h
      refine ⟨fun k hk => mono2 k (mono1 k hk), ?_, ?_⟩
      · intro q hq k hk
        rcases List.mem_cons.mp hq with hq1 | hq1
        · subst hq1
          exact mono2 k (cover1 k hk)
        · exact cover2 q hq1 k hk
      · intro k hk
        rw [frame2 k (fun q hq => hk q (by simp [hq])), frame1 k (hk p (by simp))]

/-! ### Success inversion and postconditions of sync_replication -/

theorem sync_some_inv (s t : SH) (h : sync_replication s = some t) :
    ∃ m1 fs1, syncFill s.mapping (groupIds s.mapping) s.mapping = some m1 ∧
      syncCopy s.mapping s.files (groupIds s.mapping) s.files = some fs1 ∧
      t = { s with mapping := m1, files := fs1 } := by
  simp only [sync_replication] at h
  cases h1 : syncFill s.mapping (groupIds s.mapping) s.mapping with
  | none => rw [h1] at h; cases h
  | some m1 =>
    rw [h1] at h
    cases h2 : syncCopy s.mapping s.files (groupIds s.mapping) s.files with
    | none => rw [h2] at h; cases h
    | some fs1 =>
      rw [h2] at h
      replace h : some { s with mapping := m1, files := fs1 } = some t := h
      exact ⟨m1, fs1, rfl, rfl, (Option.some_inj.mp h).symm⟩

theorem sync_mapping_eq (s t : SH) (h : sync_replication s = some t) :
    t.mapping = s.mapping ++ fillsFrom s.mapping (groupIds s.mapping) := by
  obtain ⟨m1, fs1, h1, _, ht⟩ := sync_some_inv s t h
  rw [ht]
  exact syncFill_some_eq s.mapping (groupIds s.mapping) s.mapping m1 h1
    (groupIds_nodup s.mapping)
    (fun p _ i hi => fillIdxs_fresh s.mapping p i hi)
    (fun p _ => rfl)

theorem groupIds_after (m0 : Catalog) :
    groupIds (m0 ++ fillsFrom m0 (groupIds m0)) = groupIds m0 := by
  rw [groupIds, mapKeys_append, List.map_append, groupIds]
  apply firstOccsAux_append_absorb
  intro a ha
  rcases List.mem_map.mp ha with ⟨k, hk, rfl⟩
  rcases (mem_mapKeys_fillsFrom m0 (groupIds m0) k).mp hk with ⟨p, hp, i, _, rfl⟩
  right
  rw [groupIds, mem_firstOccs] at hp
  simpa [ShardKey.pid] using hp

theorem globalMax_after (m0 : Catalog) :
    globalMax (m0 ++ fillsFrom m0 (groupIds m0)) = globalMax m0 := by
  rw [globalMax, mapKeys_append]
  rw [maxIdx_append]
  have hle : maxIdx (mapKeys (fillsFrom m0 (groupIds m0))) ≤ globalMax m0 := by
    apply foldl_max_le
    intro k hk
    rcases (mem_mapKeys_fillsFrom m0 (groupIds m0) k).mp hk with ⟨p, _, i, hi, rfl⟩
    have := (mem_fillIdxs m0 p i).mp hi
    simp only [ShardKey.ridx]
    omega
  rw [globalMax] at hle ⊢
  exact Nat.max_eq_left hle

theorem groupKeys_append (m F : Catalog) (p : Nat) :
    groupKeys (m ++ F) p = groupKeys m p ++ groupKeys F p := by
  rw [groupKeys, mapKeys_append, List.filter_append]
  rfl

theorem groupKeys_fillsFrom (m0 : Catalog) (p : Nat) : ∀ (gs : List Nat),
    gs.Nodup → p ∈ gs →
    groupKeys (fillsFrom m0 gs) p = (fillIdxs m0 p).map (ShardKey.replica p) := by
  intro gs
  induction gs with
  | nil => intro _ hp; cases hp
  | cons q qs ih =>
    intro hnd hp
    have hcons : fillsFrom m0 (q :: qs) = (fillIdxs m0 q).map
        (fun i => (ShardKey.replica q i, (mapGet m0 (.primary q)).getD ⟨0, 0⟩))
        ++ fillsFrom m0 qs := fillsFrom_cons m0 q qs
    rw [hcons, groupKeys_append]
    by_cases hq : p = q
    · subst hq
      have h1 : groupKeys ((fillIdxs m0 p).map
          (fun i => (ShardKey.replica p i, (mapGet m0 (.primary p)).getD ⟨0, 0⟩))) p
          = (fillIdxs m0 p).map (ShardKey.replica p) := by
        rw [groupKeys, mapKeys, List.map_map]
        have : ((fun e => Prod.fst e) ∘ fun i =>
            ((ShardKey.replica p i : ShardKey), (mapGet m0 (.primary p)).getD ⟨0, 0⟩))
            = ShardKey.replica p := rfl
        rw [this]
        apply List.filter_eq_self.mpr
        intro k hk
        rcases List.mem_map.mp hk with ⟨i, _, rfl⟩
        simp [ShardKey.pid]
      have h2 : groupKeys (fillsFrom m0 qs) p = [] := by
        rw [groupKeys]
        apply List.filter_eq_nil_iff.mpr
        intro k hk
        rcases (mem_mapKeys_fillsFrom m0 qs k).mp hk with ⟨a, ha, i, _, rfl⟩
        have hnotin : p ∉ qs := (List.nodup_cons.mp hnd).1
        simp only [ShardKey.pid, beq_iff_eq]
        intro hap
        exact hnotin (hap ▸ ha)
      rw [h1, h2, List.append_nil]
    · have h1 : groupKeys ((fillIdxs m0 q).map
          (fun i => (ShardKey.replica q i, (mapGet m0 (.primary q)).getD ⟨0, 0⟩))) p
          = [] := by
        rw [groupKeys]
        apply List.filter_eq_nil_iff.mpr
        intro k hk
        rw [mapKeys, List.map_map] at hk
        rcases List.mem_map.mp hk with ⟨i, _, rfl⟩
        simp only [Function.comp, ShardKey.pid, beq_iff_eq]
        exact fun hqp => hq hqp.symm
      have hp2 : p ∈ qs := by
        rcases List.mem_cons.mp hp with h | h
        · exact absurd h hq
        · exact h
      rw [h1, List.nil_append]
      exact ih (List.nodup_cons.mp hnd).2 hp2

theorem localMax_after (m0 : Catalog) (p : Nat) (hp : p ∈ groupIds m0) :
    localMax (m0 ++ fillsFrom m0 (groupIds m0)) p = globalMax m0 := by
  rw [localMax, groupKeys_append, maxIdx_append,
    groupKeys_fillsFrom m0 p (groupIds m0) (groupIds_nodup m0) hp]
  by_cases hle : globalMax m0 ≤ localMax m0 p
  · have hfe : fillIdxs m0 p = [] := by
      rw [fillIdxs]
      have hz : globalMax m0 - localMax m0 p = 0 := by omega
      rw [hz]
      rfl
    rw [hfe, List.map_nil]
    have hlg := localMax_le_globalMax m0 p
    have hmx : localMax m0 p = globalMax m0 := Nat.le_antisymm hlg hle
    rw [localMax] at hmx
    have hz : maxIdx ([] : List ShardKey) = 0 := rfl
    rw [hz, Nat.max_zero]
    exact hmx
  · have h1 : maxIdx ((fillIdxs m0 p).map (ShardKey.replica p)) = globalMax m0 := by
      apply Nat.le_antisymm
      · apply foldl_max_le
        intro k hk
        rcases List.mem_map.mp hk with ⟨i, hi, rfl⟩
        have := (mem_fillIdxs m0 p i).mp hi
        simp only [ShardKey.ridx]
        omega
      · have hmem : ShardKey.replica p (globalMax m0)
            ∈ (fillIdxs m0 p).map (ShardKey.replica p) :=
          List.mem_map.mpr ⟨globalMax m0, (mem_fillIdxs m0 p _).mpr (by omega), rfl⟩
        have := le_foldl_max ShardKey.ridx _ _ hmem
        simpa [ShardKey.ridx, maxIdx] using this
    rw [h1]
    have := localMax_le_globalMax m0 p
    rw [localMax] at this
    exact Nat.max_eq_right this

/-- The postconditions a successful sync_replication run establishes,
packaged for reuse: the catalog grows by exactly the fill entries, files
are never deleted, every catalog key of the result has a file, every
group's replica level reaches the global level, and files that already
existed for catalog keys keep their bytes. -/
theorem sync_post (s t : SH) (h : sync_replication s = some t) :
    t.mapping = s.mapping ++ fillsFrom s.mapping (groupIds s.mapping) ∧
    (∀ k, fileExists s.files k = true → fileExists t.files k = true) ∧
    (∀ k ∈ mapKeys t.mapping, fileExists t.files k = true) ∧
    (∀ k ∈ mapKeys s.mapping, fileExists s.files k = true →
      mapGet t.files k = mapGet s.files k) := by
  obtain ⟨m1, fs1, h1, h2, ht⟩ := sync_some_inv s t h
  have hmap := sync_mapping_eq s t h
  obtain ⟨mono, cover, frame⟩ := syncCopy_facts s.mapping s.files _ s.files fs1 h2
  have htf : t.files = fs1 := by rw [ht]
  refine ⟨hmap, ?_, ?_, ?_⟩
  · intro k hk
    rw [htf]
    exact mono k hk
  · intro k hk
    rw [hmap, mapKeys_append] at hk
    rw [htf]
    rcases List.mem_append.mp hk with hk | hk
    · by_cases hex : fileExists s.files k = true
      · exact mono k hex
      · have hpg : k.pid ∈ groupIds s.mapping := pid_mem_groupIds s.mapping k hk
        apply cover k.pid hpg k
        rw [destKeys]
        apply List.mem_append_left
        rw [missingKeys, List.mem_filter]
        refine ⟨(mem_groupKeys _ _ _).mpr ⟨hk, rfl⟩, ?_⟩
        simp only [Bool.not_eq_true] at hex
        simp [hex]
    · rcases (mem_mapKeys_fillsFrom _ _ k).mp hk with ⟨p, hp, i, hi, rfl⟩
      apply cover p hp
      rw [destKeys]
      apply List.mem_append_right
      exact List.mem_map.mpr ⟨i, hi, rfl⟩
  · intro k hk hex
    rw [htf]
    apply frame
    intro p hp
    rw [destKeys]
    intro hmem
    rcases List.mem_append.mp hmem with hm | hm
    · rw [missingKeys, List.mem_filter] at hm
      rw [hex] at hm
      simp at hm
    · rcases List.mem_map.mp hm with ⟨i, hi, rfl⟩
      exact fillIdxs_fresh s.mapping p i hi hk

/-! ### sync_replication as a no-op on already-synchronised states -/

theorem syncFill_nil_fill (m0 : Catalog) : ∀ (gs : List Nat) (m : Catalog),
    (∀ p ∈ gs, fillIdxs m0 p = []) → syncFill m0 gs m = some m := by
  intro gs
  induction gs with
  | nil => intro m _; rfl
  | cons p ps ih =>
    intro m h
    rw [syncFill, h p (by simp)]
    exact ih m (fun q hq => h q (by simp [hq]))

theorem syncCopy_nil_dest (m0 : Catalog) (fs0 : Files) : ∀ (gs : List Nat) (fs : Files),
    (∀ p ∈ gs, destKeys m0 fs0 p = []) → syncCopy m0 fs0 gs fs = some fs := by
  intro gs
  induction gs with
  | nil => intro fs _; rfl
  | cons p ps ih =>
    intro fs h
    rw [syncCopy, h p (by simp)]
    have hred : copyGroup fs (srcKey m0 fs0 p) [] = some fs := by
      cases srcKey m0 fs0 p with
      | none => rfl
      | some sk => rfl
    rw [hred]
    exact ih fs (fun q hq => h q (by simp [hq]))

theorem sync_noop (s : SH)
    (hA : ∀ k ∈ mapKeys s.mapping, fileExists s.files k = true)
    (hB : ∀ p ∈ groupIds s.mapping, localMax s.mapping p = globalMax s.mapping) :
    sync_replication s = some s := by
  have hfill : ∀ p ∈ groupIds s.mapping, fillIdxs s.mapping p = [] := by
    intro p hp
    rw [fillIdxs, hB p hp]
    simp
  have hdest : ∀ p ∈ groupIds s.mapping, destKeys s.mapping s.files p = [] := by
    intro p hp
    rw [destKeys, hfill p hp]
    have hmiss : missingKeys s.mapping s.files p = [] := by
      rw [missingKeys]
      apply List.filter_eq_nil_iff.mpr
      intro k hk
      have := hA k ((mem_groupKeys _ _ _).mp hk).1
      simp [this]
    rw [hmiss]
    rfl
  simp only [sync_replication]
  rw [syncFill_nil_fill s.mapping _ s.mapping hfill,
    syncCopy_nil_dest s.mapping s.files _ s.files hdest]

theorem sync_post_levels (s t : SH) (h : sync_replication s = some t) :
    ∀ p ∈ groupIds t.mapping, localMax t.mapping p = globalMax t.mapping := by
  have hm := sync_mapping_eq s t h
  intro p hp
  rw [hm] at hp ⊢
  rw [groupIds_after] at hp
  rw [localMax_after s.mapping p hp, globalMax_after]

/-! ### Concrete states used by the claims -/

/-- An 11-character corpus (11 distinct letters). -/
def datC1 : Content := "ABCDEFGHIJK".data

/-- The same letters in the order produced by the string sort of eleven
shard ids: 0, 1, 10, 2, 3, ..., 9. -/
def scramC1 : Content := "ABKCDEFGHIJ".data

/-- The 16-character corpus of the spec's concrete scenario. -/
def dat16 : Content := "AAAABBBBCCCCDDDD".data

/-- The state build_shards(4, dat16) actually produces. -/
def s3val : SH :=
  ⟨[(.primary 0, ⟨0, 4⟩), (.primary 1, ⟨5, 8⟩), (.primary 2, ⟨9, 12⟩),
    (.primary 3, ⟨13, 16⟩)],
   [(.primary 0, "AAAA".data), (.primary 1, "BBBB".data), (.primary 2, "CCCC".data),
    (.primary 3, "DDDD".data)], 16⟩

/-- Two primaries, the second with one replica; all files in place. -/
def s5 : SH :=
  ⟨[(.primary 0, ⟨0, 2⟩), (.primary 1, ⟨3, 4⟩), (.replica 1 1, ⟨3, 4⟩)],
   [(.primary 0, "AB".data), (.primary 1, "CD".data), (.replica 1 1, "CD".data)], 0⟩

/-- What remove_shard(s5) produces: shard 1's replica entry and file are
left behind, and the following sync even mirrors a fresh 0-1 replica. -/
def s5r : SH :=
  ⟨[(.primary 0, ⟨0, 4⟩), (.replica 1 1, ⟨3, 4⟩), (.replica 0 1, ⟨0, 4⟩)],
   [(.primary 0, "ABCD".data), (.replica 1 1, "CD".data), (.replica 0 1, "ABCD".data)], 4⟩

/-- Primary 0 with a divergent replica 0-1, primary 1 whose only replica
has index 2 (so the global level is 2 and 1-1 is a gap). -/
def s2g : SH :=
  ⟨[(.primary 0, ⟨0, 1⟩), (.replica 0 1, ⟨0, 1⟩), (.primary 1, ⟨2, 3⟩),
    (.replica 1 2, ⟨2, 3⟩)],
   [(.primary 0, "A".data), (.replica 0 1, "B".data), (.primary 1, "C".data),
    (.replica 1 2, "C".data)], 0⟩

/-- sync_replication(s2g): the divergent 0-1 is untouched, the gap 1-1 is
never created, and the new 0-2 is copied from the divergent 0-1. -/
def t2g : SH :=
  ⟨[(.primary 0, ⟨0, 1⟩), (.replica 0 1, ⟨0, 1⟩), (.primary 1, ⟨2, 3⟩),
    (.replica 1 2, ⟨2, 3⟩), (.replica 0 2, ⟨0, 1⟩)],
   [(.primary 0, "A".data), (.replica 0 1, "B".data), (.primary 1, "C".data),
    (.replica 1 2, "C".data), (.replica 0 2, "B".data)], 0⟩

/-- Non-uniform replication: shard 0 has one replica, shard 1 has none. -/
def s7 : SH :=
  ⟨[(.primary 0, ⟨0, 0⟩), (.replica 0 1, ⟨0, 0⟩), (.primary 1, ⟨1, 1⟩)],
   [(.primary 0, "A".data), (.replica 0 1, "A".data), (.primary 1, "B".data)], 0⟩

/-- The state at the moment remove_replication(s7) raises: shard 0's
replica was already deleted before the NothingToRemove error. -/
def s7e : SH :=
  ⟨[(.primary 0, ⟨0, 0⟩), (.primary 1, ⟨1, 1⟩)],
   [(.primary 0, "A".data), (.primary 1, "B".data)], 0⟩

/-- Uniform replication level 1 over two primaries, all files present. -/
def s7u : SH :=
  ⟨[(.primary 0, ⟨0, 0⟩), (.replica 0 1, ⟨0, 0⟩), (.primary 1, ⟨1, 1⟩),
    (.replica 1 1, ⟨1, 1⟩)],
   [(.primary 0, "A".data), (.replica 0 1, "A".data), (.primary 1, "B".data),
    (.replica 1 1, "B".data)], 0⟩

/-- Shard 0 at replica level 1, shard 1 still at level 0. -/
def s8 : SH :=
  ⟨[(.primary 0, ⟨0, 1⟩), (.replica 0 1, ⟨0, 1⟩), (.primary 1, ⟨2, 3⟩)],
   [(.primary 0, "A".data), (.replica 0 1, "A".data), (.primary 1, "B".data)], 0⟩

/-- sync_replication(s8): replica 1-1 created and mirrored from primary 1. -/
def t8 : SH :=
  ⟨[(.primary 0, ⟨0, 1⟩), (.replica 0 1, ⟨0, 1⟩), (.primary 1, ⟨2, 3⟩),
    (.replica 1 1, ⟨2, 3⟩)],
   [(.primary 0, "A".data), (.replica 0 1, "A".data), (.primary 1, "B".data),
    (.replica 1 1, "B".data)], 0⟩

/-- A catalog with one primary and one replica (for the NotFound message). -/
def s9c : SH :=
  ⟨[(.primary 0, ⟨0, 1⟩), (.replica 0 1, ⟨0, 1⟩)], [], 0⟩

/-- Primary 0's file deleted; only its replica file survives. -/
def s10 : SH :=
  ⟨[(.primary 0, ⟨0, 1⟩), (.replica 0 1, ⟨0, 1⟩)],
   [(.replica 0 1, "Z".data)], 0⟩

/-- sync_replication(s10): primary 0 recreated from its replica. -/
def t10 : SH :=
  ⟨[(.primary 0, ⟨0, 1⟩), (.replica 0 1, ⟨0, 1⟩)],
   [(.replica 0 1, "Z".data), (.primary 0, "Z".data)], 0⟩

/-! ### Claim theorems -/

/-- C1: the claim states that concatenating the primary shard files in
ascending numeric id order reproduces the exact original corpus for every
shard count, including 11 or more, and that the code's corpus
reconstruction concatenates primaries in that id order.  The spec is the
intent, but load_data_from_shards concatenates in the string-sorted order
of get_shard_ids, which places shard 10 before shard 2: with 11 shards the
numeric-order concatenation is still the corpus, while the code's own
reconstruction is scrambled. -/
theorem C1_string_sort_breaks_round_trip :
    (build_shards SH0 11 datC1).bind primaryConcat = some datC1 ∧
    (build_shards SH0 11 datC1).bind load_data_from_shards = some scramC1 ∧
    scramC1 ≠ datC1 := by
  refine ⟨by decide, by decide, by decide⟩

/-- C2 (counterexample): a state on which sync_replication succeeds while
violating the claimed postcondition: the pre-existing divergent replica
0-1 keeps content B different from primary 0's A, replica 1-1 (index 1 of
globalMax 2) is never created, and the freshly created 0-2 is copied from
the divergent replica rather than from the primary. -/
theorem C2_counterexample :
    sync_replication s2g = some t2g ∧
    globalMax t2g.mapping = 2 ∧
    mapGet t2g.mapping (.replica 1 1) = none ∧
    mapGet t2g.files (.replica 0 1) ≠ mapGet t2g.files (.primary 0) := by
  refine ⟨by decide, by decide, by decide, by decide⟩

/-- C2 (amended): whenever sync_replication returns successfully, every
catalog key (primary or replica) has a file, every group's replica level
reaches the global maximum (entries localMax+1..globalMax are created, but
gaps below a group's own level are not filled), and the file of every
catalog key that already existed keeps its prior content -- in particular
replicas whose files already existed with divergent content are left
divergent, they are not rewritten from their primary. -/
theorem C2_sync_postcondition (s t : SH) (h : sync_replication s = some t) :
    (∀ k ∈ mapKeys t.mapping, fileExists t.files k = true) ∧
    (∀ p ∈ groupIds t.mapping, localMax t.mapping p = globalMax t.mapping) ∧
    (∀ k ∈ mapKeys s.mapping, fileExists s.files k = true →
      mapGet t.files k = mapGet s.files k) := by
  obtain ⟨_, _, hcov, hfr⟩ := sync_post s t h
  exact ⟨hcov, sync_post_levels s t h, hfr⟩

/-- C2 witness: the amended postcondition at the concrete run s8 -> t8. -/
theorem C2_witness :
    fileExists t8.files (ShardKey.replica 1 1) = true ∧
    localMax t8.mapping 1 = globalMax t8.mapping ∧
    mapGet t8.files (ShardKey.replica 0 1) = mapGet s8.files (ShardKey.replica 0 1) := by
  have h := C2_sync_postcondition s8 t8 (by decide)
  exact ⟨h.1 _ (by decide), h.2.1 1 (by decide), h.2.2 _ (by decide) (by decide)⟩

/-- C3 (counterexample): build(4, "AAAABBBBCCCCDDDD") does not record the
claimed Range [4,7] for shard 1; it records start 5, end 8. -/
theorem C3_counterexample :
    (build_shards SH0 4 dat16).map (fun t => mapGet t.mapping (.primary 1))
      = some (some ⟨5, 8⟩) ∧
    (⟨5, 8⟩ : SRange) ≠ ⟨4, 7⟩ := by
  refine ⟨by decide, by decide⟩

/-- C3 (amended): build(4, "AAAABBBBCCCCDDDD") on an empty catalog yields
primaries 0..3 whose files are the four length-4 quarters, and records the
Ranges 0:[0,4], 1:[5,8], 2:[9,12], 3:[13,16] (end is the cumulative
character count, and each start after the first skips one position). -/
theorem C3_build_concrete : build_shards SH0 4 dat16 = some s3val := by
  decide

/-- C4: for every data and every count >= 1, the partitioner returns
exactly count segments whose in-order concatenation is exactly data
(including count > length and zero remainder). -/
theorem C4_partition_round_trip (data : Content) (count : Nat) (h : 1 ≤ count) :
    (generate_sharded_data count data).length = count ∧
    (generate_sharded_data count data).flatten = data :=
  ⟨gsd_length count data, gsd_flatten count data h⟩

/-- C4 witness: count 3 over a 5-character corpus. -/
theorem C4_witness :
    (1 ≤ 3 ∧ (generate_sharded_data 3 "ABCDE".data).length = 3 ∧
      (generate_sharded_data 3 "ABCDE".data).flatten = "ABCDE".data) :=
  ⟨by decide, C4_partition_round_trip "ABCDE".data 3 (by decide)⟩

/-- C5: the claim states removeShard deletes the highest primary's file
and catalog entry together with all of that primary's replica entries and
files, leaving nothing that refers to the removed id.  The spec is the
intent, but the code pops only the primary key and removes only the
primary file: after remove_shard on two primaries where shard 1 has a
replica, the catalog still holds key 1-1 and the file 1-1.txt still
exists. -/
theorem C5_remove_shard_leaves_replica :
    remove_shard s5 = some s5r ∧
    mapGet s5r.mapping (.replica 1 1) = some ⟨3, 4⟩ ∧
    fileExists s5r.files (.replica 1 1) = true := by
  refine ⟨by decide, by decide, by decide⟩

/-- C6: the claim states addShard then removeShard restores the original
concatenated primary content whenever the corpus length stays at or above
the shard count.  The spec is the intent, but with 10 initial shards the
pair of calls passes through 11 shards, and remove_shard reloads the
corpus in string-sorted id order (10 before 2), repartitioning scrambled
data: an 11-character corpus (length >= the shard count at every step)
comes back permuted. -/
theorem C6_add_remove_not_inverse :
    (build_shards SH0 10 datC1).bind primaryConcat = some datC1 ∧
    (((build_shards SH0 10 datC1).bind add_shard).bind remove_shard).bind primaryConcat
      = some scramC1 ∧
    scramC1 ≠ datC1 := by
  refine ⟨by decide, by decide, by decide⟩

/-- C7 (counterexample): a non-uniform state (shard 0 at level 1, shard 1
at level 0) has replication level 1, yet remove_replication fails with
NothingToRemove -- and by the time it raises it has already deleted shard
0's replica entry and file, so the failure is not state-preserving
either. -/
theorem C7_counterexample :
    remove_replication s7 = .error (.nothingToRemove, s7e) ∧
    globalMax s7.mapping = 1 ∧
    s7e ≠ s7 := by
  refine ⟨by decide, by decide, by decide⟩

/-- C8: running sync_replication again immediately after a successful run
returns the very state it is given: catalog and files unchanged. -/
theorem C8_sync_idempotent (s t : SH) (h : sync_replication s = some t) :
    sync_replication t = some t := by
  obtain ⟨_, _, hcov, _⟩ := sync_post s t h
  exact sync_noop t hcov (sync_post_levels s t h)

/-- C8 witness: the second run after the concrete run s8 -> t8. -/
theorem C8_witness : sync_replication t8 = some t8 :=
  C8_sync_idempotent s8 t8 (by decide)

/-- C9 (counterexample): the invalid-shard message lists only
get_shard_ids(); with a replica 0-1 present, asking for an unknown id
returns a message enumerating just the primary id 0, omitting the valid
replica id 0-1 that listReplicaIds() reports. -/
theorem C9_counterexample :
    get_shard_data s9c (some (ShardKey.primary 5)) = .invalid [ShardKey.primary 0] ∧
    ShardKey.replica 0 1 ∈ get_replication_ids s9c.mapping ∧
    ShardKey.replica 0 1 ∉ [ShardKey.primary 0] := by
  refine ⟨by decide, by decide, by decide⟩

/-- C9 (amended): querying an id absent from the catalog returns the
invalid-shard response enumerating exactly listPrimaryIds() -- the current
primary keys of the catalog (replica ids are not included). -/
theorem C9_invalid_enumerates_primary_ids (s : SH) (k : ShardKey)
    (h : mapGet s.mapping k = none) :
    get_shard_data s (some k) = .invalid (get_shard_ids s.mapping) ∧
    ∀ k2, k2 ∈ get_shard_ids s.mapping ↔
      (k2 ∈ mapKeys s.mapping ∧ k2.isPrimary = true) := by
  constructor
  · simp only [get_shard_data, h]
  · intro k2
    rw [get_shard_ids, mem_sortKeys, List.mem_filter]

/-- C9 witness: the amended behaviour at the concrete state s9c. -/
theorem C9_witness :
    get_shard_data s9c (some (ShardKey.primary 7)) = .invalid (get_shard_ids s9c.mapping) ∧
    (ShardKey.primary 0 ∈ get_shard_ids s9c.mapping ↔
      (ShardKey.primary 0 ∈ mapKeys s9c.mapping ∧
        (ShardKey.primary 0).isPrimary = true)) := by
  have h := C9_invalid_enumerates_primary_ids s9c (ShardKey.primary 7) (by decide)
  exact ⟨h.1, h.2 (ShardKey.primary 0)⟩

/-- C10: a successful sync_replication never shrinks the state: the
resulting catalog keys are a superset of the starting ones, every Range
already recorded is unchanged, and no shard file is deleted. -/
theorem C10_sync_never_shrinks (s t : SH) (h : sync_replication s = some t) :
    (∀ k ∈ mapKeys s.mapping, k ∈ mapKeys t.mapping) ∧
    (∀ k, fileExists s.files k = true → fileExists t.files k = true) ∧
    (∀ k ∈ mapKeys s.mapping, mapGet t.mapping k = mapGet s.mapping k) := by
  have hm := sync_mapping_eq s t h
  obtain ⟨_, hmono, _, _⟩ := sync_post s t h
  refine ⟨?_, hmono, ?_⟩
  · intro k hk
    rw [hm, mapKeys_append]
    exact List.mem_append_left _ hk
  · intro k hk
    rw [hm]
    apply mapGet_append_right_ne
    intro e he hek
    have hkeys : e.1 ∈ mapKeys (fillsFrom s.mapping (groupIds s.mapping)) :=
      List.mem_map.mpr ⟨e, he, rfl⟩
    rcases (mem_mapKeys_fillsFrom _ _ _).mp hkeys with ⟨p, _, i, hi, hrep⟩
    rw [hek] at hrep
    exact fillIdxs_fresh s.mapping p i hi (hrep ▸ hk)

/-- C10 witness: the concrete run s10 -> t10 in which a deleted primary is
recreated; the replica entry, its Range and its file all survive. -/
theorem C10_witness :
    ShardKey.replica 0 1 ∈ mapKeys t10.mapping ∧
    fileExists t10.files (ShardKey.replica 0 1) = true ∧
    mapGet t10.mapping (ShardKey.primary 0) = mapGet s10.mapping (ShardKey.primary 0) := by
  have h := C10_sync_never_shrinks s10 t10 (by decide)
  exact ⟨h.1 _ (by decide), h.2.1 _ (by decide), h.2.2 _ (by decide)⟩

/-! ### remove_replication under a uniform replication level (C7) -/

theorem mem_get_shard_ids (m : Catalog) (k : ShardKey) :
    k ∈ get_shard_ids m ↔ (k ∈ mapKeys m ∧ k.isPrimary = true) := by
  rw [get_shard_ids, mem_sortKeys, List.mem_filter]

theorem mem_get_replication_ids (m : Catalog) (k : ShardKey) :
    k ∈ get_replication_ids m ↔ (k ∈ mapKeys m ∧ k.isPrimary = false) := by
  rw [get_replication_ids, mem_sortKeys, List.mem_filter]
  simp [Bool.not_eq_true']

theorem mem_primary_pids (m : Catalog) (p : Nat) :
    p ∈ (get_shard_ids m).map ShardKey.pid ↔ ShardKey.primary p ∈ mapKeys m := by
  constructor
  · intro h
    rcases List.mem_map.mp h with ⟨k, hk, rfl⟩
    have hm := (mem_get_shard_ids m k).mp hk
    cases k with
    | primary i => exact hm.1
    | replica a b => simp [ShardKey.isPrimary] at hm
  · intro h
    exact List.mem_map.mpr ⟨ShardKey.primary p, (mem_get_shard_ids m _).mpr ⟨h, rfl⟩, rfl⟩

theorem repLvl_le (m : Catalog) (L p : Nat)
    (hub : ∀ q i, ShardKey.replica q i ∈ mapKeys m → i ≤ L) :
    repLvl m p ≤ L := by
  rw [repLvl]
  apply foldl_max_le
  intro q hq
  rcases List.mem_filter.mp hq with ⟨hq1, _⟩
  rcases List.mem_map.mp hq1 with ⟨k, hk, rfl⟩
  have hkk := (mem_get_replication_ids m k).mp hk
  cases k with
  | primary i => simp [ShardKey.isPrimary] at hkk
  | replica a b =>
    have := hub a b hkk.1
    simpa [ShardKey.pid, ShardKey.ridx] using this

theorem le_repLvl (m : Catalog) (p i : Nat)
    (hmem : ShardKey.replica p i ∈ mapKeys m) : i ≤ repLvl m p := by
  have hrep : ShardKey.replica p i ∈ get_replication_ids m :=
    (mem_get_replication_ids m _).mpr ⟨hmem, rfl⟩
  have hpair : ((p : Nat), i) ∈ (get_replication_ids m).map (fun k => (k.pid, k.ridx)) :=
    List.mem_map.mpr ⟨_, hrep, rfl⟩
  have hfil : ((p : Nat), i) ∈ ((get_replication_ids m).map
      (fun k => (k.pid, k.ridx))).filter (fun q => q.1 == p) :=
    List.mem_filter.mpr ⟨hpair, by simp⟩
  have := le_foldl_max Prod.snd _ _ hfil
  rw [repLvl]
  simpa using this

theorem repLvl_zero_of_no_reps (m : Catalog) (h : get_replication_ids m = [])
    (p : Nat) : repLvl m p = 0 := by
  rw [repLvl, h]
  rfl

theorem removeRepLoop_zero (lvl : Nat → Nat) (gs : List Nat) (s : SH)
    (hne : gs ≠ []) (hz : ∀ p ∈ gs, lvl p = 0) :
    removeRepLoop lvl gs s = .error (.nothingToRemove, s) := by
  cases gs with
  | nil => exact absurd rfl hne
  | cons p ps =>
    rw [removeRepLoop, if_neg (fun hc => hc (hz p (by simp)))]

theorem removeRepLoop_ok (lvl : Nat → Nat) : ∀ (gs : List Nat) (s : SH),
    (∀ p ∈ gs, lvl p ≠ 0) →
    (∀ p ∈ gs, fileExists s.files (.replica p (lvl p)) = true) →
    (∀ p ∈ gs, (mapGet s.mapping (.replica p (lvl p))).isSome = true) →
    gs.Nodup →
    ∃ t : SH, removeRepLoop lvl gs s = .ok t ∧
      t.lastCharPosition = s.lastCharPosition ∧
      (∀ p ∈ gs, mapGet t.mapping (.replica p (lvl p)) = none ∧
        mapGet t.files (.replica p (lvl p)) = none) ∧
      (∀ k : ShardKey, (∀ p ∈ gs, k ≠ ShardKey.replica p (lvl p)) →
        mapGet t.mapping k = mapGet s.mapping k ∧
        mapGet t.files k = mapGet s.files k) := by
  intro gs
  induction gs with
  | nil =>
    intro s _ _ _ _
    exact ⟨s, rfl, rfl, fun p hp => absurd hp (List.not_mem_nil p),
      fun k _ => ⟨rfl, rfl⟩⟩
  | cons p ps ih =>
    intro s hpos hfe hmem hnd
    have hpps : p ∉ ps := (List.nodup_cons.mp hnd).1
    have hkey_ne : ∀ q ∈ ps,
        (ShardKey.replica q (lvl q) : ShardKey) ≠ ShardKey.replica p (lvl p) := by
      intro q hq he
      injection he with e1 e2
      exact hpps (by rw [← e1]; exact hq)
    obtain ⟨t, hrun, hlast, hdel, hframe⟩ := ih
      { s with mapping := mapDel s.mapping (.replica p (lvl p)),
               files := mapDel s.files (.replica p (lvl p)) }
      (fun q hq => hpos q (by simp [hq]))
      (fun q hq => by
        show (mapGet (mapDel s.files (.replica p (lvl p))) _).isSome = true
        rw [mapGet_mapDel_ne _ _ _ (hkey_ne q hq)]
        exact hfe q (by simp [hq]))
      (fun q hq => by
        show (mapGet (mapDel s.mapping (.replica p (lvl p))) _).isSome = true
        rw [mapGet_mapDel_ne _ _ _ (hkey_ne q hq)]
        exact hmem q (by simp [hq]))
      (List.nodup_cons.mp hnd).2
    refine ⟨t, ?_, hlast, ?_, ?_⟩
    · simp only [removeRepLoop]
      rw [if_pos (hpos p (by simp))]
      rw [if_pos (hfe p (by simp))]
      rw [if_pos (hmem p (by simp))]
      exact hrun
    · intro q hq
      rcases List.mem_cons.mp hq with hq1 | hq2
      · subst hq1
        have hfr := hframe (ShardKey.replica q (lvl q))
          (fun r hr he => hkey_ne r hr he.symm)
        obtain ⟨hm2, hf2⟩ := hfr
        constructor
        · rw [hm2]
          exact mapGet_mapDel_self ..
        · rw [hf2]
          exact mapGet_mapDel_self ..
      · exact hdel q hq2
    · intro k hk
      obtain ⟨hm2, hf2⟩ := hframe k (fun r hr => hk r (by simp [hr]))
      have hkp : k ≠ ShardKey.replica p (lvl p) := hk p (by simp)
      constructor
      · rw [hm2]
        exact mapGet_mapDel_ne _ _ _ hkp
      · rw [hf2]
        exact mapGet_mapDel_ne _ _ _ hkp


/-- C7 (amended): over a catalog whose replication level is globally
uniform (every group has its primary key, and the replica keys of every
primary are exactly the indices 1..L) with every catalog key's file
present: when L = 0, remove_replication fails with NothingToRemove and the
state at the raise is the unmodified input; when L >= 1 it succeeds,
deleting exactly the level-L replica entry and file of every primary and
leaving every other catalog entry and file unchanged.  Without the
uniformity precondition the failure condition is not level = 0 and a
failure can leave the state modified: see the counterexample. -/
theorem C7_remove_replication_uniform (s : SH) (L : Nat)
    (h1 : ∀ k ∈ mapKeys s.mapping, ShardKey.primary k.pid ∈ mapKeys s.mapping)
    (h2 : ∀ p i, ShardKey.replica p i ∈ mapKeys s.mapping ↔
      (ShardKey.primary p ∈ mapKeys s.mapping ∧ 1 ≤ i ∧ i ≤ L))
    (h3 : ∀ k ∈ mapKeys s.mapping, fileExists s.files k = true)
    (h4 : s.mapping ≠ []) :
    (L = 0 → remove_replication s = .error (.nothingToRemove, s)) ∧
    (1 ≤ L → ∃ t, remove_replication s = .ok t ∧
      (∀ p, ShardKey.primary p ∈ mapKeys s.mapping →
        mapGet t.mapping (.replica p L) = none ∧
        mapGet t.files (.replica p L) = none) ∧
      (∀ k : ShardKey, (∀ p, k ≠ ShardKey.replica p L) →
        mapGet t.mapping k = mapGet s.mapping k ∧
        mapGet t.files k = mapGet s.files k)) := by
  have hk0 : ∃ k0, k0 ∈ mapKeys s.mapping := by
    cases hm : s.mapping with
    | nil => exact absurd hm h4
    | cons e m2 => exact ⟨e.1, by simp [hm, mapKeys]⟩
  obtain ⟨k0, hk0⟩ := hk0
  have hprim0 : ShardKey.primary k0.pid ∈ mapKeys s.mapping := h1 k0 hk0
  have hprne : ((get_shard_ids s.mapping).map ShardKey.pid) ≠ [] := by
    intro hnil
    have := (mem_primary_pids s.mapping k0.pid).mpr hprim0
    rw [hnil] at this
    cases this
  have hgsmem : ∀ p, p ∈ firstOccs ((get_shard_ids s.mapping).map ShardKey.pid
      ++ (get_replication_ids s.mapping).map ShardKey.pid) ↔
      ShardKey.primary p ∈ mapKeys s.mapping := by
    intro p
    rw [mem_firstOccs, List.mem_append]
    constructor
    · intro h
      rcases h with h | h
      · exact (mem_primary_pids s.mapping p).mp h
      · rcases List.mem_map.mp h with ⟨k, hk, rfl⟩
        have hkk := (mem_get_replication_ids s.mapping k).mp hk
        cases k with
        | primary i => simp [ShardKey.isPrimary] at hkk
        | replica a b => exact ((h2 a b).mp hkk.1).1
    · intro h
      exact Or.inl ((mem_primary_pids s.mapping p).mpr h)
  constructor
  · intro hL0
    subst hL0
    have hnorep : get_replication_ids s.mapping = [] := by
      cases hge : get_replication_ids s.mapping with
      | nil => rfl
      | cons k ks =>
        have hk : k ∈ get_replication_ids s.mapping := by rw [hge]; simp
        have hkk := (mem_get_replication_ids s.mapping k).mp hk
        cases k with
        | primary i => simp [ShardKey.isPrimary] at hkk
        | replica a b =>
          have := (h2 a b).mp hkk.1
          omega
    have hgs_ne : firstOccs ((get_shard_ids s.mapping).map ShardKey.pid
        ++ (get_replication_ids s.mapping).map ShardKey.pid) ≠ [] :=
      List.ne_nil_of_mem ((hgsmem k0.pid).mpr hprim0)
    simp only [remove_replication]
    rw [if_neg hprne]
    rw [removeRepLoop_zero _ _ _ hgs_ne
      (fun p _ => repLvl_zero_of_no_reps s.mapping hnorep p)]
  · intro hL1
    have hlvlL : ∀ p, ShardKey.primary p ∈ mapKeys s.mapping →
        repLvl s.mapping p = L := by
      intro p hp
      apply Nat.le_antisymm
      · exact repLvl_le s.mapping L p (fun q i hqi => ((h2 q i).mp hqi).2.2)
      · exact le_repLvl s.mapping p L ((h2 p L).mpr ⟨hp, hL1, Nat.le_refl L⟩)
    obtain ⟨t0, hrun, hlast, hdel, hframe⟩ := removeRepLoop_ok (repLvl s.mapping)
      (firstOccs ((get_shard_ids s.mapping).map ShardKey.pid
        ++ (get_replication_ids s.mapping).map ShardKey.pid)) s
      (fun p hp => by rw [hlvlL p ((hgsmem p).mp hp)]; omega)
      (fun p hp => by
        rw [hlvlL p ((hgsmem p).mp hp)]
        exact h3 _ ((h2 p L).mpr ⟨(hgsmem p).mp hp, hL1, Nat.le_refl L⟩))
      (fun p hp => by
        rw [hlvlL p ((hgsmem p).mp hp)]
        exact (mapGet_isSome_iff_mem _ _).mpr
          ((h2 p L).mpr ⟨(hgsmem p).mp hp, hL1, Nat.le_refl L⟩))
      (nodup_firstOccs _)
    have hdelL : ∀ p, ShardKey.primary p ∈ mapKeys s.mapping →
        mapGet t0.mapping (.replica p L) = none ∧
        mapGet t0.files (.replica p L) = none := by
      intro p hp
      have hpgs := (hgsmem p).mpr hp
      have hd := hdel p hpgs
      rw [hlvlL p hp] at hd
      exact hd
    have hframeL : ∀ k : ShardKey, (∀ p, k ≠ ShardKey.replica p L) →
        mapGet t0.mapping k = mapGet s.mapping k ∧
        mapGet t0.files k = mapGet s.files k := by
      intro k hk
      exact hframe k (fun p hp => by
        rw [hlvlL p ((hgsmem p).mp hp)]
        exact hk p)
    have hmemt : ∀ k, k ∈ mapKeys t0.mapping ↔
        (k ∈ mapKeys s.mapping ∧ ∀ p, k ≠ ShardKey.replica p L) := by
      intro k
      rw [← mapGet_isSome_iff_mem]
      by_cases hkrep : ∃ p, k = ShardKey.replica p L
      · obtain ⟨p, rfl⟩ := hkrep
        constructor
        · intro hmem
          exfalso
          by_cases hpk : ShardKey.primary p ∈ mapKeys s.mapping
          · rw [(hdelL p hpk).1] at hmem
            cases hmem
          · have hfr := hframe (ShardKey.replica p L) (fun q hq => by
              rw [hlvlL q ((hgsmem q).mp hq)]
              intro he
              injection he with e1 e2
              apply hpk
              rw [e1]
              exact (hgsmem q).mp hq)
            rw [hfr.1] at hmem
            have hks := (mapGet_isSome_iff_mem s.mapping _).mp hmem
            exact hpk ((h2 p L).mp hks).1
        · rintro ⟨_, hne⟩
          exact absurd rfl (hne p)
      · push_neg at hkrep
        have hfr := hframeL k hkrep
        rw [hfr.1, mapGet_isSome_iff_mem]
        exact ⟨fun h => ⟨h, hkrep⟩, fun h => h.1⟩
    have hbound : ∀ k ∈ mapKeys t0.mapping, k.ridx ≤ L - 1 := by
      intro k hk
      obtain ⟨hks, hne⟩ := (hmemt k).mp hk
      cases k with
      | primary i => simp [ShardKey.ridx]
      | replica a b =>
        have hb := (h2 a b).mp hks
        have hbl : b ≠ L := fun hbl => hne a (by rw [hbl])
        simp only [ShardKey.ridx]
        omega
    have hgmax : globalMax t0.mapping = L - 1 := by
      apply Nat.le_antisymm
      · exact foldl_max_le ShardKey.ridx _ _ hbound
      · by_cases hL2 : 2 ≤ L
        · have hm2 : ShardKey.replica k0.pid (L - 1) ∈ mapKeys t0.mapping :=
            (hmemt _).mpr ⟨(h2 k0.pid (L - 1)).mpr ⟨hprim0, by omega, by omega⟩,
              fun q he => by injection he with e1 e2; omega⟩
          have hle := le_foldl_max ShardKey.ridx (mapKeys t0.mapping) _ hm2
          simpa [ShardKey.ridx] using hle
        · omega
    have hloc : ∀ p ∈ groupIds t0.mapping,
        localMax t0.mapping p = globalMax t0.mapping := by
      intro p hp
      rw [hgmax]
      apply Nat.le_antisymm
      · apply foldl_max_le
        intro k hk
        exact hbound k ((mem_groupKeys _ _ _).mp hk).1
      · rcases (mem_groupIds _ _).mp hp with ⟨k, hkmem, hkpid⟩
        have hks : k ∈ mapKeys s.mapping := ((hmemt k).mp hkmem).1
        have hprimp : ShardKey.primary p ∈ mapKeys s.mapping := by
          have hh := h1 k hks
          rw [hkpid] at hh
          exact hh
        by_cases hL2 : 2 ≤ L
        · have hm2 : ShardKey.replica p (L - 1) ∈ mapKeys t0.mapping :=
            (hmemt _).mpr ⟨(h2 p (L - 1)).mpr ⟨hprimp, by omega, by omega⟩,
              fun q he => by injection he with e1 e2; omega⟩
          have hg : ShardKey.replica p (L - 1) ∈ groupKeys t0.mapping p :=
            (mem_groupKeys _ _ _).mpr ⟨hm2, rfl⟩
          have hle := le_foldl_max ShardKey.ridx _ _ hg
          simpa [ShardKey.ridx] using hle
        · omega
    have hfiles : ∀ k ∈ mapKeys t0.mapping, fileExists t0.files k = true := by
      intro k hk
      obtain ⟨hks, hne⟩ := (hmemt k).mp hk
      have hfr := hframeL k hne
      rw [fileExists, hfr.2]
      exact h3 k hks
    have hsync : sync_replication t0 = some t0 := sync_noop t0 hfiles hloc
    refine ⟨t0, ?_, hdelL, hframeL⟩
    have hfinal : (match sync_replication t0 with
        | none => (Except.error (RemErr.syncFailed, t0) : Except (RemErr × SH) SH)
        | some s2 => Except.ok s2) = Except.ok t0 := by
      rw [hsync]
    simp only [remove_replication]
    rw [if_neg hprne]
    rw [hrun]
    exact hfinal

/-- C7 witness: the amended behaviour on the uniform level-1 state s7u,
whose removal result is the state s7e. -/
theorem C7_witness :
    mapGet s7e.mapping (ShardKey.replica 0 1) = none ∧
    mapGet s7e.files (ShardKey.replica 1 1) = none ∧
    mapGet s7e.mapping (ShardKey.primary 0) = mapGet s7u.mapping (ShardKey.primary 0) := by
  have h2 : ∀ p i, ShardKey.replica p i ∈ mapKeys s7u.mapping ↔
      (ShardKey.primary p ∈ mapKeys s7u.mapping ∧ 1 ≤ i ∧ i ≤ 1) := by
    intro p i
    simp [s7u, mapKeys]
    omega
  obtain ⟨t, hok, hdel, hfr⟩ := (C7_remove_replication_uniform s7u 1
    (by decide) h2 (by decide) (by decide)).2 (by decide)
  have hts : t = s7e := by
    have hval : remove_replication s7u = .ok s7e := by decide
    rw [hok] at hval
    injection hval
  subst hts
  exact ⟨(hdel 0 (by decide)).1, (hdel 1 (by decide)).2,
    (hfr (ShardKey.primary 0) (fun p => by simp)).1⟩
